import Mathlib

/-!
Verification of the bajaj-hackrx backend (FastAPI document question-answering
service) against its natural-language specification.

The Python sources under `backend/app/` are shallowly embedded below:
strings are `List Char`, exceptions are `Except`, external library and
network calls are oracle parameters, and the logging / HTTP side effects
that the claims mention are returned as explicit data (log lists, call
traces, stage lists).
-/

set_option maxRecDepth 4000

abbrev Str := List Char

/-- Whitespace set of Python `str.strip()` (ASCII part used here). -/
def pyIsSpace (c : Char) : Bool :=
  c = ' ' || c = '\t' || c = '\n' || c = '\x0d' || c = '\x0b' || c = '\x0c'

/-- Python `s.strip()`: remove leading and trailing whitespace. -/
def pyStrip (s : Str) : Str :=
  ((s.dropWhile pyIsSpace).reverse.dropWhile pyIsSpace).reverse

/-- Python `s.lower()` (ASCII behaviour, enough for file extensions). -/
def pyLower (s : Str) : Str := s.map Char.toLower

/-- Python `s.startswith(pre)`. -/
def pyStartswith (pre s : Str) : Bool := pre.isPrefixOf s

/-- Python `s.endswith(suf)`. -/
def pyEndswith (suf s : Str) : Bool := suf.isSuffixOf s

/-- Index of the first occurrence of `sep` as a contiguous substring of `s`
(Python `s.find(sep)` restricted to found/not-found). -/
def findSub (sep : Str) : Str → Option Nat
  | [] => if sep.isPrefixOf ([] : Str) then some 0 else none
  | c :: rest =>
    if sep.isPrefixOf (c :: rest) then some 0
    else (findSub sep rest).map (fun i => i + 1)

/-- Python `sep in s` for substrings. -/
def containsSub (sep s : Str) : Bool := (findSub sep s).isSome

/-- Fuel-driven worker for Python `s.split(sep)` with non-empty `sep`;
`fuel ≥ s.length` always suffices because each found occurrence strictly
shrinks the remaining string. -/
def pySplitF (sep : Str) : Nat → Str → List Str
  | 0, s => [s]
  | fuel + 1, s =>
    match findSub sep s with
    | none => [s]
    | some i => s.take i :: pySplitF sep fuel (s.drop (i + sep.length))

/-- Python `s.split(sep)` for non-empty `sep` (the only way it is called
in this code base; Python rejects an empty separator). -/
def pySplit (sep s : Str) : List Str :=
  if sep = [] then [s] else pySplitF sep s.length s

/-- Python `s.split(c, 1)` packaged as (before, after); when `c` is absent
the whole string is the first component (mirrors `urllib` usage). -/
def splitFirst (c : Char) (s : Str) : Str × Str :=
  match findSub [c] s with
  | none => (s, [])
  | some i => (s.take i, s.drop (i + 1))

/-- Index of the last occurrence of character `c` (Python `s.rfind(c)`
restricted to found/not-found). -/
def rfindChar (c : Char) : Str → Option Nat
  | [] => none
  | a :: rest =>
    match rfindChar c rest with
    | some i => some (i + 1)
    | none => if a = c then some 0 else none

/-- CPython `os.path.splitext` (posix): split at the last dot that lies
after the last slash and has at least one non-dot character between that
slash and itself. -/
def splitext (p : Str) : Str × Str :=
  match rfindChar '.' p with
  | none => (p, [])
  | some dot =>
    let fstart : Nat :=
      match rfindChar '/' p with
      | none => 0
      | some s => s + 1
    if ((p.drop fstart).take (dot - fstart)).any (fun c => c != '.') then
      (p.take dot, p.drop dot)
    else (p, [])

/-- CPython `urllib.parse.urlparse(url).path` specialised to the inputs this
code guards on (strings starting with a valid scheme such as `http://` or
`https://`): strip leading C0-control-or-space characters, remove tab, CR
and LF, cut the fragment, drop the scheme at the first colon, skip the
`//netloc` up to the first `/` or `?`, cut the query, and split trailing
`;params` after the last slash. -/
def urlparsePath (url : Str) : Str :=
  let u := url.dropWhile (fun c => c ≤ ' ')
  let u := u.filter (fun c => (c != '\t') && (c != '\x0d') && (c != '\n'))
  let noFrag := (splitFirst '#' u).1
  let afterScheme :=
    match findSub [':'] noFrag with
    | some i => noFrag.drop (i + 1)
    | none => noFrag
  let rest :=
    if pyStartswith "//".data afterScheme then
      (afterScheme.drop 2).dropWhile (fun c => (c != '/') && (c != '?'))
    else afterScheme
  let path := (splitFirst '?' rest).1
  if containsSub [';'] path then
    match rfindChar '/' path with
    | none => (splitFirst ';' path).1
    | some s =>
      match findSub [';'] (path.drop s) with
      | none => path
      | some j => path.take (s + j)
  else path

/-!
## Configuration (`backend/app/config.py`)

`Settings` reads the bearer token from the environment; the other fields
used by the request path have the defaults below.
-/

structure Config where
  bearer : Str
  apiPrefix : Str
  chunkSize : Nat
  chunkOverlap : Nat

/-- The `Settings` defaults of `config.py` around an environment-supplied
bearer token. -/
def defaultConfig (bearer : Str) : Config :=
  { bearer := bearer
    apiPrefix := "/api/v1".data
    chunkSize := 600
    chunkOverlap := 100 }

/-!
## Authentication (`backend/app/main.py` middleware, `backend/app/api.py`)
-/

/-- Outcome of the global middleware `authenticate_request`. -/
inductive MwResult
  | unauthorized
  | forbidden
  | pass
deriving DecidableEq

/-- `authenticate_request` of `main.py`: for paths under the API prefix,
reject a missing/empty header or one not starting with `Bearer ` with 401,
then compare `auth_header.split("Bearer ")[1].strip()` against the
configured token and reject a mismatch with 403.  The indexing `[1]` is
total here because the header is known to start with `Bearer `, so the
split has at least two parts. -/
def authenticate_request (bearer apiPrefix path : Str) (authHeader : Option Str) :
    MwResult :=
  if pyStartswith apiPrefix path then
    match authHeader with
    | none => .unauthorized
    | some h =>
      if h = [] || !pyStartswith "Bearer ".data h then .unauthorized
      else
        let token := pyStrip ((pySplit "Bearer ".data h).getD 1 [])
        if token = bearer then .pass else .forbidden
  else .pass

/-- Outcome of the per-route `verify_token` of `api.py`: either it returns
normally or it raises an `HTTPException` with status 401 and the recorded
detail string. -/
inductive VtResult
  | ok
  | raised401 (detail : Str)
deriving DecidableEq

/-- `verify_token` of `api.py`: reject a missing/empty header or one not
starting with `Bearer ` (401), then compare `auth_header.split(" ")[1]`
against the configured token (401 on mismatch).  Again the split has at
least two parts because the header contains a space. -/
def verify_token (bearer : Str) (authHeader : Option Str) : VtResult :=
  match authHeader with
  | none => .raised401 "Missing or invalid token".data
  | some h =>
    if h = [] || !pyStartswith "Bearer ".data h then
      .raised401 "Missing or invalid token".data
    else
      let token := (pySplit [' '] h).getD 1 []
      if token = bearer then .ok else .raised401 "Invalid token".data

/-!
## Extraction (`backend/app/extractor.py`)

External effects (HTTP download, temporary files, per-format conversion
libraries, the PDF loader) are oracle parameters; the control flow and the
string manipulation are the code under verification.
-/

/-- One `requests.get(file_url, timeout=20)` call made by `download_file`. -/
structure DownloadCall where
  url : Str
  timeout : Nat
deriving DecidableEq

/-- Environment of `download_file`: the stem chosen by
`tempfile.NamedTemporaryFile` (its `name` before the suffix is appended)
and whether `requests` raises (`fail = some message`). -/
structure DlOracle where
  tmpStem : Str
  fail : Option Str

/-- `download_file` of `extractor.py`: derive the extension from the URL
path (falling back to `default_suffix` when empty), fetch with a fixed
20-second timeout, and write to a temporary file carrying that suffix.
Returns the result together with the HTTP call that was made. -/
def download_file (o : DlOracle) (file_url default_suffix : Str) :
    Except Str Str × DownloadCall :=
  let ext := (splitext (urlparsePath file_url)).2
  let ext := if ext = [] then default_suffix else ext
  (match o.fail with
   | some e => .error e
   | none => .ok (o.tmpStem ++ ext),
   { url := file_url, timeout := 20 })

/-- A LangChain document: page text plus the page-number metadata that the
extractor attaches and the chunker preserves. -/
structure LCDoc where
  page_content : Str
  page : Nat
deriving DecidableEq

/-- The FAISS vectorstore is modelled by the list of documents it indexes. -/
abbrev FAISSIndex := List LCDoc

/-- `process_pdf_zip` of `extractor.py`: walk `z.namelist()` in archive
order, extract and return the first entry whose lowercased name ends in
`.pdf`, and raise `ValueError("No PDF found in zip file.")` when the loop
finds none.  `zextract` models `z.extract` (the path it returns). -/
def process_pdf_zip (zextract : Str → Str) : List Str → Except Str Str
  | [] => .error "No PDF found in zip file.".data
  | f :: rest =>
    if pyEndswith ".pdf".data (pyLower f) then .ok (zextract f)
    else process_pdf_zip zextract rest

/-- External collaborators of the request pipeline: the download
environment, the per-format converters (each returns the path of the PDF
it produced, or the message of the exception it raised), reading a zip
archive, the PDF loader, `FAISS.from_documents`, `save_local` and the
per-question QA call. -/
structure Oracles where
  dl : DlOracle
  docx_to_pdf : Str → Except Str Str
  image_to_pdf : Str → Except Str Str
  xlsx_to_pdf : Str → Except Str Str
  zip_namelist : Str → Except Str (List Str)
  zip_extract : Str → Str
  eml_to_pdf : Str → Except Str Str
  msg_to_pdf : Str → Except Str Str
  load_pdf : Str → Except Str (List LCDoc)
  from_documents : List LCDoc → Except Str FAISSIndex
  save_local : FAISSIndex → Except Str Unit
  answer_one : Str → Option FAISSIndex → Except Str Str

/-- Observable events of one `extract_text_only` run: the HTTP downloads
performed and the value of the extension variable at the format-dispatch
point (line 215 of `extractor.py`), when reached. -/
structure ExtractTrace where
  downloads : List DownloadCall
  dispatchExt : Option Str
deriving DecidableEq

/-- The part of `extract_text_only` after the optional download: compute
`ext = os.path.splitext(file_path)[1].lower()`, dispatch on it (raising
`ValueError` with the offending extension when it is unsupported), then
load the resulting PDF. -/
def extractFromPath (o : Oracles) (file_path : Str) (tr : ExtractTrace) :
    Except Str (List LCDoc) × ExtractTrace :=
  let ext := pyLower (splitext file_path).2
  let tr := { tr with dispatchExt := some ext }
  let conv : Except Str Str :=
    if ext = ".docx".data then o.docx_to_pdf file_path
    else if ext = ".jpg".data || ext = ".jpeg".data || ext = ".png".data then
      o.image_to_pdf file_path
    else if ext = ".xlsx".data then o.xlsx_to_pdf file_path
    else if ext = ".zip".data then
      match o.zip_namelist file_path with
      | .error e => .error e
      | .ok names => process_pdf_zip o.zip_extract names
    else if ext = ".eml".data then o.eml_to_pdf file_path
    else if ext = ".msg".data then o.msg_to_pdf file_path
    else if ext != ".pdf".data then .error ("Unsupported file type: ".data ++ ext)
    else .ok file_path
  match conv with
  | .error e => (.error e, tr)
  | .ok pdf_path => (o.load_pdf pdf_path, tr)

/-- `extract_text_only` of `extractor.py`: when the input starts with
`http://` or `https://`, download it first (inferring the temporary-file
suffix from the URL path, defaulting to `.pdf`), then convert and load as
a local file. -/
def extract_text_only (o : Oracles) (file_path : Str) :
    Except Str (List LCDoc) × ExtractTrace :=
  if pyStartswith "http://".data file_path || pyStartswith "https://".data file_path then
    let urlExt := pyLower (splitext (urlparsePath file_path)).2
    let dl := download_file o.dl file_path (if urlExt = [] then ".pdf".data else urlExt)
    match dl.1 with
    | .error e => (.error e, { downloads := [dl.2], dispatchExt := none })
    | .ok tmp_path => extractFromPath o tmp_path { downloads := [dl.2], dispatchExt := none }
  else
    extractFromPath o file_path { downloads := [], dispatchExt := none }

/-!
## Chunking (`backend/app/chunker.py`)

`chunk_text_only` delegates the splitting itself to LangChain's
`RecursiveCharacterTextSplitter`, whose source is not part of this
repository; the separator hierarchy `["\n\n", "\n", ".", " "]` and the
metadata propagation are repository code.
-/

/-- Modelled from the spec: the recursive splitting pass of LangChain's
`RecursiveCharacterTextSplitter` (library code, not in `src/`).  Per
section 4.3 of the spec, splitting proceeds hierarchically by trying each
separator in turn and recursively subdivides any unit still larger than
the target size; a unit in which no separator occurs is left whole. -/
def splitBySeps (size : Nat) : List Str → Str → List Str
  | [], text => [text]
  | sep :: rest, text =>
    if text.length ≤ size then [text]
    else
      let parts := pySplit sep text
      if parts.length ≤ 1 then splitBySeps size rest text
      else (parts.map (splitBySeps size rest)).flatten

/-- The trailing window of `n` characters of a unit, duplicated into the
next chunk to realise the configured overlap. -/
def takeTailWindow (n : Nat) (s : Str) : Str := s.drop (s.length - n)

/-- Modelled from the spec: the merging pass of the splitter (library
code, not in `src/`).  Per sections 4.3 and 8 of the spec, consecutive
units are packed into chunks no longer than the target size, the trailing
overlap window of a finished chunk is duplicated at the start of the next
one when it still fits, and a single unit longer than the target size
becomes a chunk of its own. -/
def mergeAux (size ov : Nat) : Str → List Str → List Str
  | cur, [] => [cur]
  | cur, u :: rest =>
    if cur.length + u.length ≤ size then mergeAux size ov (cur ++ u) rest
    else if (takeTailWindow ov cur).length + u.length ≤ size then
      cur :: mergeAux size ov (takeTailWindow ov cur ++ u) rest
    else cur :: mergeAux size ov u rest

/-- Merge the units produced by `splitBySeps` into the final chunk list. -/
def mergeUnits (size ov : Nat) : List Str → List Str
  | [] => []
  | u :: rest => mergeAux size ov u rest

/-- The separator hierarchy passed to the splitter in `chunker.py`:
paragraph breaks, then line breaks, then sentence-ending periods, then
spaces. -/
def splitterSeparators : List Str := ["\n\n".data, "\n".data, ".".data, " ".data]

/-- Splitting one page text into chunk texts. -/
def split_text (size ov : Nat) (text : Str) : List Str :=
  mergeUnits size ov (splitBySeps size splitterSeparators text)

/-- `chunk_text_only` of `chunker.py`: split every document's text with
the recursive splitter and give each produced chunk the metadata of its
source document. -/
def chunk_text_only (docs : List LCDoc) (chunk_size chunk_overlap : Nat) :
    List LCDoc :=
  (docs.map (fun d =>
    (split_text chunk_size chunk_overlap d.page_content).map
      (fun t => LCDoc.mk t d.page))).flatten


/-!
## Embedding and persistence (`backend/app/embedder.py`)
-/

/-- `embed_chunks` of `embedder.py`: an empty chunk list yields `None`
after logging the warning "No chunks to embed."; otherwise the FAISS
vectorstore is built by `FAISS.from_documents`.  The second component
collects the warning messages logged by the call. -/
def embed_chunks (from_documents : List LCDoc → Except Str FAISSIndex)
    (chunks : List LCDoc) : Except Str (Option FAISSIndex) × List Str :=
  if chunks = [] then (.ok none, ["No chunks to embed.".data])
  else
    match from_documents chunks with
    | .error e => (.error e, [])
    | .ok db => (.ok (some db), [])

/-- The message of the `AttributeError` Python raises when `save_local` is
looked up on `None` (the quotes of the original message are omitted). -/
def noneTypeSaveLocalMsg : Str :=
  "AttributeError: NoneType object has no attribute save_local".data

/-- `save_faiss_index` of `embedder.py` applied to the value `run_query`
passes it: the directory is created, then `vectorstore.save_local` is
invoked — an attribute lookup that raises `AttributeError` when the
vectorstore is the `None` returned by `embed_chunks` for empty input. -/
def save_faiss_index (save_local : FAISSIndex → Except Str Unit)
    (vectorstore : Option FAISSIndex) : Except Str Unit :=
  match vectorstore with
  | none => .error noneTypeSaveLocalMsg
  | some vs => save_local vs

/-!
## QA pipeline and HTTP facade (`backend/app/api.py`, `backend/app/main.py`)
-/

/-- Modelled from the spec: `query_pipeline` of `qa_pipeline.py`, which is
imported by `api.py` but whose source file is not under `src/`.  Per
section 4.6 of the spec it produces one answer per question, in order, by
one completion call per question, and the failure of any single call
aborts the whole batch. -/
def query_pipeline (answer_one : Str → Option FAISSIndex → Except Str Str) :
    List Str → Option FAISSIndex → Except Str (List Str)
  | [], _ => .ok []
  | q :: rest, vs =>
    match answer_one q vs with
    | .error e => .error e
    | .ok a =>
      match query_pipeline answer_one rest vs with
      | .error e => .error e
      | .ok answers => .ok (a :: answers)

/-- A response of the endpoint: HTTP 200 with the answers, or an
`HTTPException` with a status code and a detail string. -/
inductive Resp
  | ok (answers : List Str)
  | err (status : Nat) (detail : Str)
deriving DecidableEq

/-- Pipeline stages of `run_query`, in the order the endpoint runs them. -/
inductive Stage
  | extraction
  | chunking
  | embedding
  | indexing
  | answering
deriving DecidableEq

/-- Outcome of handling one request: the response, the pipeline stages
that were entered, and the HTTP downloads performed. -/
structure RunResult where
  resp : Resp
  stages : List Stage
  downloads : List DownloadCall
deriving DecidableEq

/-- Detail string of the blanket `except Exception` handler of
`run_query`. -/
def processingFailed (e : Str) : Str := "Processing failed: ".data ++ e

/-- `run_query` of `api.py`: verify the token, extract, chunk, embed,
save the index, answer the questions; any exception anywhere in the `try`
block — including the `HTTPException` that `verify_token` itself raises —
is caught and re-raised as HTTP 500 with `"Processing failed: " + str(e)`
as detail.  For the starlette `HTTPException`, `str(e)` is
`"401: " + detail`. -/
def run_query (cfg : Config) (o : Oracles) (documents : Str)
    (questions : List Str) (authHeader : Option Str) : RunResult :=
  match verify_token cfg.bearer authHeader with
  | .raised401 d =>
    { resp := .err 500 (processingFailed ("401: ".data ++ d))
      stages := [], downloads := [] }
  | .ok =>
    let ex := extract_text_only o documents
    match ex.1 with
    | .error e =>
      { resp := .err 500 (processingFailed e)
        stages := [.extraction], downloads := ex.2.downloads }
    | .ok text_blocks =>
      let chunks := chunk_text_only text_blocks cfg.chunkSize cfg.chunkOverlap
      match (embed_chunks o.from_documents chunks).1 with
      | .error e =>
        { resp := .err 500 (processingFailed e)
          stages := [.extraction, .chunking, .embedding]
          downloads := ex.2.downloads }
      | .ok vectorstore =>
        match save_faiss_index o.save_local vectorstore with
        | .error e =>
          { resp := .err 500 (processingFailed e)
            stages := [.extraction, .chunking, .embedding, .indexing]
            downloads := ex.2.downloads }
        | .ok _ =>
          match query_pipeline o.answer_one questions vectorstore with
          | .error e =>
            { resp := .err 500 (processingFailed e)
              stages := [.extraction, .chunking, .embedding, .indexing, .answering]
              downloads := ex.2.downloads }
          | .ok answers =>
            { resp := .ok answers
              stages := [.extraction, .chunking, .embedding, .indexing, .answering]
              downloads := ex.2.downloads }

/-- The full request flow for `POST {API_PREFIX}/hackrx/run`: the global
middleware of `main.py` runs first and returns 401/403 without invoking
`call_next` on a bad header; only when it passes does the route handler
`run_query` run. -/
def handle_request (cfg : Config) (o : Oracles) (documents : Str)
    (questions : List Str) (path : Str) (authHeader : Option Str) : RunResult :=
  match authenticate_request cfg.bearer cfg.apiPrefix path authHeader with
  | .unauthorized =>
    { resp := .err 401 "Missing or invalid Authorization header".data
      stages := [], downloads := [] }
  | .forbidden =>
    { resp := .err 403 "Invalid token provided".data
      stages := [], downloads := [] }
  | .pass => run_query cfg o documents questions authHeader

/-- The file extensions `extract_text_only` accepts: `.pdf` passes
through, the others are converted. -/
def supportedExtensions : List Str :=
  [".pdf".data, ".docx".data, ".jpg".data, ".jpeg".data, ".png".data,
   ".xlsx".data, ".zip".data, ".eml".data, ".msg".data]

/-!
## Concrete fixtures used by witnesses and counterexamples
-/

/-- A configuration with the bearer token `tok` and the defaults of
`config.py`. -/
def cfgW : Config := defaultConfig "tok".data

/-- Oracles of a fully successful run: one extracted page, embedding and
saving succeed, each question is answered with `ans`. -/
def oW : Oracles :=
  { dl := { tmpStem := "/tmp/tmpw0".data, fail := none }
    docx_to_pdf := fun _ => .ok "/tmp/w.pdf".data
    image_to_pdf := fun _ => .ok "/tmp/w.pdf".data
    xlsx_to_pdf := fun _ => .ok "/tmp/w.pdf".data
    zip_namelist := fun _ => .ok []
    zip_extract := fun n => n
    eml_to_pdf := fun _ => .ok "/tmp/w.pdf".data
    msg_to_pdf := fun _ => .ok "/tmp/w.pdf".data
    load_pdf := fun _ => .ok [⟨"hi".data, 0⟩]
    from_documents := fun cs => .ok cs
    save_local := fun _ => .ok ()
    answer_one := fun _ _ => .ok "ans".data }

/-- Oracles whose PDF loader raises `boom` (extraction-stage failure). -/
def oFail : Oracles := { oW with load_pdf := fun _ => .error "boom".data }

/-- Oracles whose PDF loader returns a document list with zero pages. -/
def oEmpty : Oracles := { oW with load_pdf := fun _ => .ok [] }

/-- A well-formed Authorization header for the token `tok`. -/
def hdrW : Option Str := some "Bearer tok".data

/-- The route path of the endpoint under the default API prefix. -/
def pathW : Str := "/api/v1/hackrx/run".data

/-!
## Properties of the string primitives
-/

theorem isPrefixOf_iff_exists : ∀ p s : Str, p.isPrefixOf s = true ↔ ∃ t, s = p ++ t
  | [], s => by simp [List.isPrefixOf]
  | a :: as, [] => by simp [List.isPrefixOf]
  | a :: as, b :: bs => by
    simp only [List.isPrefixOf, Bool.and_eq_true, beq_iff_eq,
      isPrefixOf_iff_exists as bs, List.cons_append, List.cons.injEq]
    constructor
    · rintro ⟨rfl, t, rfl⟩; exact ⟨t, rfl, rfl⟩
    · rintro ⟨t, rfl, rfl⟩; exact ⟨rfl, t, rfl⟩

theorem isPrefixOf_append_self (l t : Str) : l.isPrefixOf (l ++ t) = true :=
  (isPrefixOf_iff_exists l (l ++ t)).mpr ⟨t, rfl⟩

theorem findSub_eq (sep s : Str) :
    findSub sep s =
      if sep.isPrefixOf s then some 0
      else
        match s with
        | [] => none
        | _ :: rest => (findSub sep rest).map (fun i => i + 1) := by
  cases s <;> rfl

theorem isSome_map_plusone (o : Option Nat) :
    (o.map (fun i => i + 1)).isSome = o.isSome := by
  cases o <;> rfl

theorem findSub_isSome_append :
    ∀ (l sep r : Str), (findSub sep (l ++ (sep ++ r))).isSome = true
  | [], sep, r => by
    rw [List.nil_append, findSub_eq, if_pos (isPrefixOf_append_self sep r)]
    rfl
  | c :: l', sep, r => by
    rw [List.cons_append]
    simp only [findSub]
    split
    · rfl
    · rw [isSome_map_plusone]
      exact findSub_isSome_append l' sep r

theorem exists_decomp_of_containsSub :
    ∀ (s sep : Str), containsSub sep s = true → ∃ l r, s = l ++ (sep ++ r)
  | [], sep, h => by
    simp only [containsSub, findSub] at h
    split at h
    · rename_i hp
      obtain ⟨t, ht⟩ := (isPrefixOf_iff_exists sep []).mp hp
      exact ⟨[], t, by rw [List.nil_append, ht]⟩
    · simp at h
  | c :: rest, sep, h => by
    simp only [containsSub, findSub] at h
    split at h
    · rename_i hp
      obtain ⟨t, ht⟩ := (isPrefixOf_iff_exists sep (c :: rest)).mp hp
      exact ⟨[], t, by rw [List.nil_append, ht]⟩
    · rw [isSome_map_plusone] at h
      obtain ⟨l, r, hl⟩ := exists_decomp_of_containsSub rest sep h
      exact ⟨c :: l, r, by rw [List.cons_append, hl]⟩

theorem containsSub_of_decomp (l sep r : Str) : containsSub sep (l ++ (sep ++ r)) = true :=
  findSub_isSome_append l sep r

theorem findSub_decomp :
    ∀ (s sep : Str) (i : Nat), findSub sep s = some i →
      ∃ l r, s = l ++ (sep ++ r) ∧ l.length = i
  | [], sep, i, hf => by
    simp only [findSub] at hf
    split at hf
    · rename_i hp
      obtain ⟨t, ht⟩ := (isPrefixOf_iff_exists sep []).mp hp
      have hsep : sep = [] := by
        cases sep with
        | nil => rfl
        | cons a as => simp at ht
      have ht' : t = [] := by
        rw [hsep] at ht
        simpa using ht.symm
      injection hf with hi
      exact ⟨[], [], by simp [hsep, ht'], hi⟩
    · cases hf
  | c :: rest, sep, i, hf => by
    simp only [findSub] at hf
    split at hf
    · rename_i hp
      obtain ⟨t, ht⟩ := (isPrefixOf_iff_exists sep (c :: rest)).mp hp
      injection hf with hi
      exact ⟨[], t, by rw [List.nil_append, ht], hi⟩
    · cases hfr : findSub sep rest with
      | none => rw [hfr] at hf; simp at hf
      | some j =>
        rw [hfr] at hf
        simp only [Option.map_some'] at hf
        injection hf with hi
        obtain ⟨l, r, hd, hlen⟩ := findSub_decomp rest sep j hfr
        exact ⟨c :: l, r, by rw [List.cons_append, hd], by simp [hlen, hi]⟩

theorem findSub_min :
    ∀ (s sep : Str) (i : Nat) (l r : Str),
      findSub sep s = some i → s = l ++ (sep ++ r) → i ≤ l.length
  | [], sep, i, l, r, hf, _ => by
    simp only [findSub] at hf
    split at hf
    · injection hf with hi
      omega
    · cases hf
  | c :: rest, sep, i, l, r, hf, hs => by
    simp only [findSub] at hf
    split at hf
    · injection hf with hi
      omega
    · rename_i hp
      cases hfr : findSub sep rest with
      | none => rw [hfr] at hf; simp at hf
      | some j =>
        rw [hfr] at hf
        simp only [Option.map_some'] at hf
        injection hf with hi
        cases l with
        | nil =>
          rw [List.nil_append] at hs
          rw [hs] at hp
          exact absurd (isPrefixOf_append_self sep r) hp
        | cons x xs =>
          rw [List.cons_append, List.cons.injEq] at hs
          have := findSub_min rest sep j xs r hfr hs.2
          simp only [List.length_cons]
          omega

theorem findSub_lt_length :
    ∀ (s sep : Str), sep ≠ [] → ∀ i, findSub sep s = some i → i < s.length
  | [], sep, hsep, i, hf => by
    simp only [findSub] at hf
    split at hf
    · rename_i hp
      obtain ⟨t, ht⟩ := (isPrefixOf_iff_exists sep []).mp hp
      cases sep with
      | nil => exact absurd rfl hsep
      | cons a as => simp at ht
    · cases hf
  | c :: rest, sep, hsep, i, hf => by
    simp only [findSub] at hf
    split at hf
    · injection hf with hi
      simp only [List.length_cons]
      omega
    · cases hfr : findSub sep rest with
      | none => rw [hfr] at hf; simp at hf
      | some j =>
        rw [hfr] at hf
        simp only [Option.map_some'] at hf
        injection hf with hi
        have := findSub_lt_length rest sep hsep j hfr
        simp only [List.length_cons]
        omega

theorem findSub_nil (sep : Str) (hsep : sep ≠ []) : findSub sep [] = none := by
  simp only [findSub]
  split
  · rename_i hp
    obtain ⟨t, ht⟩ := (isPrefixOf_iff_exists sep []).mp hp
    cases sep with
    | nil => exact absurd rfl hsep
    | cons a as => simp at ht
  · rfl

theorem sep_length_pos (sep : Str) (hsep : sep ≠ []) : 1 ≤ sep.length := by
  cases sep with
  | nil => exact absurd rfl hsep
  | cons a as => simp

theorem pySplitF_congr (sep : Str) (hsep : sep ≠ []) :
    ∀ f1 f2 s, s.length ≤ f1 → s.length ≤ f2 → pySplitF sep f1 s = pySplitF sep f2 s := by
  intro f1
  induction f1 with
  | zero =>
    intro f2 s h1 _
    have hs : s = [] := List.eq_nil_of_length_eq_zero (Nat.le_zero.mp h1)
    subst hs
    cases f2 with
    | zero => rfl
    | succ m => simp [pySplitF, findSub_nil sep hsep]
  | succ n ih =>
    intro f2 s h1 h2
    cases f2 with
    | zero =>
      have hs : s = [] := List.eq_nil_of_length_eq_zero (Nat.le_zero.mp h2)
      subst hs
      simp [pySplitF, findSub_nil sep hsep]
    | succ m =>
      simp only [pySplitF]
      cases hfs : findSub sep s with
      | none => rfl
      | some i =>
        dsimp only
        have hi := findSub_lt_length s sep hsep i hfs
        have hsl := sep_length_pos sep hsep
        have hd : (s.drop (i + sep.length)).length = s.length - (i + sep.length) :=
          List.length_drop _ _
        rw [ih m (s.drop (i + sep.length)) (by omega) (by omega)]

theorem pySplit_eq_pySplitF (sep s : Str) (hsep : sep ≠ []) (f : Nat)
    (hf : s.length ≤ f) : pySplitF sep f s = pySplit sep s := by
  unfold pySplit
  rw [if_neg hsep]
  exact pySplitF_congr sep hsep f s.length s hf (by rfl)

theorem pySplit_eq (sep s : Str) (hsep : sep ≠ []) :
    pySplit sep s =
      match findSub sep s with
      | none => [s]
      | some i => s.take i :: pySplit sep (s.drop (i + sep.length)) := by
  unfold pySplit
  rw [if_neg hsep]
  cases s with
  | nil =>
    rw [findSub_nil sep hsep]
    rfl
  | cons c rest =>
    simp only [List.length_cons, pySplitF]
    cases hfs : findSub sep (c :: rest) with
    | none => rfl
    | some i =>
      dsimp only
      have hi := findSub_lt_length (c :: rest) sep hsep i hfs
      have hsl := sep_length_pos sep hsep
      have hd : ((c :: rest).drop (i + sep.length)).length = (c :: rest).length - (i + sep.length) :=
        List.length_drop _ _
      simp only [List.length_cons] at hi hd
      rw [pySplit_eq_pySplitF sep ((c :: rest).drop (i + sep.length)) hsep rest.length (by omega)]
      rw [if_neg hsep]
      rw [pySplit_eq_pySplitF sep ((c :: rest).drop (i + sep.length)) hsep
        ((c :: rest).drop (i + sep.length)).length (by rfl)]

theorem pySplit_ne_nil (sep s : Str) (hsep : sep ≠ []) : pySplit sep s ≠ [] := by
  rw [pySplit_eq sep s hsep]
  cases findSub sep s <;> simp

theorem findSub_none_of_split_short (sep s : Str) (hsep : sep ≠ [])
    (h : (pySplit sep s).length ≤ 1) : findSub sep s = none := by
  cases hfs : findSub sep s with
  | none => rfl
  | some i =>
    rw [pySplit_eq sep s hsep, hfs] at h
    simp only [List.length_cons] at h
    have : pySplit sep (s.drop (i + sep.length)) = [] :=
      List.eq_nil_of_length_eq_zero (by omega)
    exact absurd this (pySplit_ne_nil sep _ hsep)

theorem pySplit_append_sep (sep t : Str) (hsep : sep ≠ []) :
    pySplit sep (sep ++ t) = [] :: pySplit sep t := by
  have hfs : findSub sep (sep ++ t) = some 0 := by
    rw [findSub_eq, if_pos (isPrefixOf_append_self sep t)]
  rw [pySplit_eq sep _ hsep, hfs]
  simp only [List.take_zero, Nat.zero_add]
  rw [List.drop_left]

theorem findSub_first_char (c : Char) :
    ∀ (a t : Str), c ∉ a → findSub [c] (a ++ (c :: t)) = some a.length
  | [], t, _ => by
    rw [List.nil_append, findSub_eq]
    have hp : ([c]).isPrefixOf (c :: t) = true :=
      (isPrefixOf_iff_exists [c] (c :: t)).mpr ⟨t, rfl⟩
    rw [if_pos hp]
    rfl
  | x :: a', t, hmem => by
    rw [List.cons_append]
    simp only [findSub]
    have hx : ¬(c = x) := fun h => hmem (by rw [h]; exact List.mem_cons_self x a')
    have hp : ([c]).isPrefixOf (x :: (a' ++ (c :: t))) = false := by
      simp only [List.isPrefixOf, Bool.and_eq_true, Bool.and_eq_false_iff]
      simp only [beq_eq_false_iff_ne, ne_eq]
      exact Or.inl hx
    rw [hp]
    simp only [Bool.false_eq_true, if_false]
    rw [findSub_first_char c a' t (fun h => hmem (List.mem_cons_of_mem x h))]
    simp

theorem findSub_eq_none_of_not_mem (sep s : Str) (a : Char)
    (ha : a ∈ sep) (hs : a ∉ s) : findSub sep s = none := by
  cases hfs : findSub sep s with
  | none => rfl
  | some i =>
    obtain ⟨l, r, hd, -⟩ := findSub_decomp s sep i hfs
    refine absurd ?_ hs
    rw [hd]
    exact List.mem_append.mpr (Or.inr (List.mem_append.mpr (Or.inl ha)))

theorem pySplit_of_findSub_none (sep s : Str) (hsep : sep ≠ [])
    (h : findSub sep s = none) : pySplit sep s = [s] := by
  rw [pySplit_eq sep s hsep, h]

theorem pySplit_char_append (c : Char) (a t : Str) (ha : c ∉ a) :
    pySplit [c] (a ++ (c :: t)) = a :: pySplit [c] t := by
  rw [pySplit_eq [c] _ (by simp), findSub_first_char c a t ha]
  have h1 : (a ++ (c :: t)).take a.length = a := List.take_left a (c :: t)
  have h2 : (a ++ (c :: t)).drop (a.length + 1) = t := by
    rw [List.append_cons]
    have hl : a.length + 1 = (a ++ [c]).length := by simp
    rw [hl, List.drop_left]
  simp only [List.length_cons, List.length_nil]
  rw [h1, h2]

theorem dropWhile_eq_self_of_all {p : Char → Bool} :
    ∀ l : Str, (∀ c ∈ l, p c = false) → l.dropWhile p = l
  | [], _ => rfl
  | c :: r, h => by
    rw [List.dropWhile_cons, h c (List.mem_cons_self c r)]
    simp

theorem pyStrip_eq_self (s : Str) (h : ∀ c ∈ s, pyIsSpace c = false) :
    pyStrip s = s := by
  unfold pyStrip
  rw [dropWhile_eq_self_of_all s h]
  rw [dropWhile_eq_self_of_all s.reverse (fun c hc => h c (List.mem_reverse.mp hc))]
  exact List.reverse_reverse s

theorem space_not_mem_of_clean (t : Str) (h : ∀ c ∈ t, pyIsSpace c = false) :
    (' ' : Char) ∉ t := fun hm => by
  have hs := h ' ' hm
  simp [pyIsSpace] at hs

theorem bearer_mw_token (t : Str) (h : ∀ c ∈ t, pyIsSpace c = false) :
    pyStrip ((pySplit "Bearer ".data ("Bearer ".data ++ t)).getD 1 []) = t := by
  have hsp := space_not_mem_of_clean t h
  have h1 : pySplit "Bearer ".data ("Bearer ".data ++ t) = [[], t] := by
    rw [pySplit_append_sep _ _ (by decide)]
    rw [pySplit_of_findSub_none _ _ (by decide)
      (findSub_eq_none_of_not_mem _ _ ' ' (by decide) hsp)]
  rw [h1]
  simp only [List.getD_cons_succ, List.getD_cons_zero]
  exact pyStrip_eq_self t h

theorem bearer_vt_token (t : Str) (h : ∀ c ∈ t, pyIsSpace c = false) :
    (pySplit [' '] ("Bearer ".data ++ t)).getD 1 [] = t := by
  have hsp := space_not_mem_of_clean t h
  have he : "Bearer ".data ++ t = "Bearer".data ++ (' ' :: t) := rfl
  rw [he, pySplit_char_append ' ' _ t (by decide)]
  rw [pySplit_of_findSub_none _ _ (by simp)
    (findSub_eq_none_of_not_mem [' '] t ' ' (List.mem_cons_self _ _) hsp)]
  simp only [List.getD_cons_succ, List.getD_cons_zero]

/-!
## Claims about authentication (C2, C10)
-/

/-- C2: a request to the run endpoint whose Authorization header is
missing, malformed (empty or not starting with `Bearer `), or carrying a
token different from the configured static bearer token (the carried token
being what the middleware extracts: everything after `Bearer `,
whitespace-stripped, compared by string equality) receives HTTP 401 or 403
from the middleware, and no pipeline stage and no download is executed;
`verify_token` repeats the equality check for requests that get past the
middleware. -/
theorem bad_token_rejected_before_pipeline
    (cfg : Config) (o : Oracles) (documents : Str) (questions : List Str)
    (path : Str) (hdr : Option Str)
    (hpath : pyStartswith cfg.apiPrefix path = true)
    (hrej : hdr = none ∨ ∃ h, hdr = some h ∧
      (pyStartswith "Bearer ".data h = false ∨
        pyStrip ((pySplit "Bearer ".data h).getD 1 []) ≠ cfg.bearer)) :
    ∃ st d, handle_request cfg o documents questions path hdr =
        { resp := .err st d, stages := [], downloads := [] } ∧
      (st = 401 ∨ st = 403) := by
  rcases hrej with rfl | ⟨h, rfl, hbad⟩
  · exact ⟨401, "Missing or invalid Authorization header".data,
      by simp [handle_request, authenticate_request, hpath], Or.inl rfl⟩
  · by_cases hsw : (decide (h = []) || !pyStartswith "Bearer ".data h) = true
    · exact ⟨401, "Missing or invalid Authorization header".data,
        by simp [handle_request, authenticate_request, hpath, hsw], Or.inl rfl⟩
    · have htok : pyStrip ((pySplit "Bearer ".data h).getD 1 []) ≠ cfg.bearer := by
        rcases hbad with hb | hb
        · exact absurd (by rw [hb]; simp) hsw
        · exact hb
      rw [Bool.not_eq_true] at hsw
      refine ⟨403, "Invalid token provided".data, ?_, Or.inr rfl⟩
      unfold handle_request authenticate_request
      rw [if_pos hpath]
      dsimp only
      rw [hsw]
      simp only [Bool.false_eq_true, if_false]
      rw [if_neg htok]

/-- Witness for C2 at a concrete header with the wrong token. -/
theorem bad_token_rejected_before_pipeline_witness :
    ∃ st d, handle_request cfgW oW "doc.pdf".data ["q".data] pathW
        (some "Bearer wrong".data) =
        { resp := .err st d, stages := [], downloads := [] } ∧
      (st = 401 ∨ st = 403) :=
  bad_token_rejected_before_pipeline cfgW oW "doc.pdf".data ["q".data] pathW
    (some "Bearer wrong".data) (by decide)
    (Or.inr ⟨"Bearer wrong".data, rfl, Or.inr (by decide)⟩)

/-- C10 is false as stated: with configured token `tok`, the header
`Bearer  tok` (two spaces) is accepted by the middleware, whose parse
strips the extra whitespace, but rejected by `verify_token`, which reads
the substring between the first and second space (the empty string); the
raised 401 is then caught by the blanket handler and returned as HTTP 500. -/
theorem mw_verify_disagree_counterexample :
    authenticate_request cfgW.bearer cfgW.apiPrefix pathW
      (some "Bearer  tok".data) = .pass ∧
    verify_token cfgW.bearer (some "Bearer  tok".data) =
      .raised401 "Invalid token".data ∧
    (run_query cfgW oW "doc.pdf".data ["q".data]
        (some "Bearer  tok".data)).resp =
      .err 500 (processingFailed ("401: ".data ++ "Invalid token".data)) :=
  ⟨by decide, by decide, by decide⟩

/-- C10 amended: on canonical headers `Bearer ` followed by a token part
free of whitespace, the middleware and the route-level `verify_token`
accept exactly the same set — both accept precisely when the token part
equals the configured token; headers with extra whitespace around the
token are decided differently by the two parsers. -/
theorem mw_verify_agree_on_clean_headers
    (bearer t : Str) (h : ∀ c ∈ t, pyIsSpace c = false) :
    (authenticate_request bearer "/api/v1".data "/api/v1/hackrx/run".data
        (some ("Bearer ".data ++ t)) = .pass) ↔
    (verify_token bearer (some ("Bearer ".data ++ t)) = .ok) := by
  have hsw : pyStartswith "Bearer ".data ("Bearer ".data ++ t) = true :=
    isPrefixOf_append_self _ _
  have hBne : ¬("Bearer ".data ++ t = ([] : Str)) := fun heq => by
    have h2 := List.append_eq_nil.mp heq
    exact absurd h2.1 (by decide)
  have hp : pyStartswith "/api/v1".data "/api/v1/hackrx/run".data = true := by decide
  simp only [authenticate_request, verify_token, hp, if_pos, hsw,
    Bool.not_true, Bool.or_false, decide_eq_false hBne, Bool.false_or,
    if_true, Bool.false_eq_true, if_false]
  rw [bearer_mw_token t h, bearer_vt_token t h]
  by_cases ht : t = bearer <;> simp [ht]

/-- Witness for the amended C10 at the concrete token `tok`. -/
theorem mw_verify_agree_on_clean_headers_witness :
    (authenticate_request "tok".data "/api/v1".data "/api/v1/hackrx/run".data
        (some ("Bearer ".data ++ "tok".data)) = .pass) ↔
    (verify_token "tok".data (some ("Bearer ".data ++ "tok".data)) = .ok) :=
  mw_verify_agree_on_clean_headers "tok".data "tok".data (by decide)

/-!
## Claims about the pipeline stages (C3, C6, C9, C4)
-/

/-- C3: for the empty chunk list, `embed_chunks` returns a null index and
logs the warning `No chunks to embed.`; it raises no error on empty
input. -/
theorem embed_chunks_empty_yields_none_with_warning
    (from_documents : List LCDoc → Except Str FAISSIndex) :
    embed_chunks from_documents [] =
      (.ok none, ["No chunks to embed.".data]) := rfl

/-- C6: the zip converter extracts and returns the first archive entry (in
archive order) whose lowercased name ends in `.pdf`, and when no entry
matches it fails with the explicit error `No PDF found in zip file.`
rather than a generic parsing failure. -/
theorem process_pdf_zip_first_pdf_or_explicit_error
    (zextract : Str → Str) (names : List Str) :
    process_pdf_zip zextract names =
      match names.find? (fun n => pyEndswith ".pdf".data (pyLower n)) with
      | some n => .ok (zextract n)
      | none => .error "No PDF found in zip file.".data := by
  induction names with
  | nil => rfl
  | cons f rest ih =>
    simp only [process_pdf_zip]
    by_cases hf : pyEndswith ".pdf".data (pyLower f) = true
    · rw [if_pos hf]
      simp only [List.find?, hf]
    · rw [if_neg hf, ih]
      rw [Bool.not_eq_true] at hf
      simp only [List.find?, hf]

/-- C9: a request whose document yields zero chunks is not handled
gracefully: `embed_chunks` returns the null index, `run_query` passes it
to `save_faiss_index`, which dereferences it, so the request ends in HTTP
500 (the AttributeError text wrapped by the blanket handler) and the
answering stage is never reached — no empty answers list is returned. -/
theorem zero_chunks_null_index_causes_500
    (cfg : Config) (o : Oracles) (documents : Str) (questions : List Str)
    (hdr : Option Str) (tb : List LCDoc)
    (hauth : verify_token cfg.bearer hdr = .ok)
    (hex : (extract_text_only o documents).1 = .ok tb)
    (hchunks : chunk_text_only tb cfg.chunkSize cfg.chunkOverlap = []) :
    (run_query cfg o documents questions hdr).resp =
      .err 500 (processingFailed noneTypeSaveLocalMsg) ∧
    Stage.answering ∉ (run_query cfg o documents questions hdr).stages := by
  have h1 : run_query cfg o documents questions hdr =
      { resp := .err 500 (processingFailed noneTypeSaveLocalMsg)
        stages := [.extraction, .chunking, .embedding, .indexing]
        downloads := (extract_text_only o documents).2.downloads } := by
    unfold run_query
    rw [hauth]
    dsimp only
    rw [hex]
    dsimp only
    rw [hchunks]
    rfl
  rw [h1]
  exact ⟨rfl, by dsimp only; decide⟩

/-- Witness for C9: a loader returning a zero-page document list makes the
concrete request end in HTTP 500 without reaching the answering stage. -/
theorem zero_chunks_null_index_causes_500_witness :
    (run_query cfgW oEmpty "doc.pdf".data ["q".data] hdrW).resp =
      .err 500 (processingFailed noneTypeSaveLocalMsg) ∧
    Stage.answering ∉ (run_query cfgW oEmpty "doc.pdf".data ["q".data] hdrW).stages :=
  zero_chunks_null_index_causes_500 cfgW oEmpty "doc.pdf".data ["q".data] hdrW []
    (by decide) rfl rfl

/-- C4: every exception raised during a pipeline stage of `run_query`
(extraction, embedding, index saving, answering; chunking is pure string
processing in this model and raises nothing) is converted by the blanket
`except Exception` handler into HTTP 500 whose detail is the raw string
representation of the exception prefixed by `Processing failed: `. -/
theorem pipeline_exception_becomes_500_with_raw_detail
    (cfg : Config) (o : Oracles) (documents : Str) (questions : List Str)
    (hdr : Option Str)
    (hauth : verify_token cfg.bearer hdr = .ok) :
    (∀ e, (extract_text_only o documents).1 = .error e →
      (run_query cfg o documents questions hdr).resp =
        .err 500 (processingFailed e)) ∧
    (∀ tb e, (extract_text_only o documents).1 = .ok tb →
      (embed_chunks o.from_documents
        (chunk_text_only tb cfg.chunkSize cfg.chunkOverlap)).1 = .error e →
      (run_query cfg o documents questions hdr).resp =
        .err 500 (processingFailed e)) ∧
    (∀ tb vs e, (extract_text_only o documents).1 = .ok tb →
      (embed_chunks o.from_documents
        (chunk_text_only tb cfg.chunkSize cfg.chunkOverlap)).1 = .ok vs →
      save_faiss_index o.save_local vs = .error e →
      (run_query cfg o documents questions hdr).resp =
        .err 500 (processingFailed e)) ∧
    (∀ tb vs e, (extract_text_only o documents).1 = .ok tb →
      (embed_chunks o.from_documents
        (chunk_text_only tb cfg.chunkSize cfg.chunkOverlap)).1 = .ok vs →
      save_faiss_index o.save_local vs = .ok () →
      query_pipeline o.answer_one questions vs = .error e →
      (run_query cfg o documents questions hdr).resp =
        .err 500 (processingFailed e)) := by
  refine ⟨?_, ?_, ?_, ?_⟩
  · intro e he
    unfold run_query
    rw [hauth]
    dsimp only
    rw [he]
  · intro tb e hex hemb
    unfold run_query
    rw [hauth]
    dsimp only
    rw [hex]
    dsimp only
    rw [hemb]
  · intro tb vs e hex hemb hsave
    unfold run_query
    rw [hauth]
    dsimp only
    rw [hex]
    dsimp only
    rw [hemb]
    dsimp only
    rw [hsave]
  · intro tb vs e hex hemb hsave hqp
    unfold run_query
    rw [hauth]
    dsimp only
    rw [hex]
    dsimp only
    rw [hemb]
    dsimp only
    rw [hsave]
    dsimp only
    rw [hqp]

/-- Witness for C4: a loader that raises `boom` makes the concrete request
answer HTTP 500 with the raw text in the detail. -/
theorem pipeline_exception_becomes_500_with_raw_detail_witness :
    (run_query cfgW oFail "doc.pdf".data ["q".data] hdrW).resp =
      .err 500 (processingFailed "boom".data) :=
  (pipeline_exception_becomes_500_with_raw_detail cfgW oFail "doc.pdf".data
    ["q".data] hdrW (by decide)).1 "boom".data rfl

/-!
## Claim about answer alignment (C1)
-/

theorem query_pipeline_ok_spec
    (f : Str → Option FAISSIndex → Except Str Str) :
    ∀ (qs : List Str) (vs : Option FAISSIndex) (ans : List Str),
      query_pipeline f qs vs = .ok ans →
      ans.length = qs.length ∧
      ∀ i (hq : i < qs.length) (ha : i < ans.length),
        f (qs.get ⟨i, hq⟩) vs = .ok (ans.get ⟨i, ha⟩)
  | [], vs, ans, h => by
    simp only [query_pipeline] at h
    injection h with h2
    subst h2
    exact ⟨rfl, fun i hq ha => absurd hq (by simp)⟩
  | q :: rest, vs, ans, h => by
    simp only [query_pipeline] at h
    cases hq1 : f q vs with
    | error e => simp only [hq1] at h; simp at h
    | ok a =>
      simp only [hq1] at h
      cases hrest : query_pipeline f rest vs with
      | error e => simp only [hrest] at h; simp at h
      | ok answers =>
        simp only [hrest] at h
        injection h with h2
        subst h2
        obtain ⟨hlen, hidx⟩ := query_pipeline_ok_spec f rest vs answers hrest
        refine ⟨by simp [hlen], ?_⟩
        intro i hq ha
        cases i with
        | zero => exact hq1
        | succ n =>
          exact hidx n (Nat.lt_of_succ_lt_succ (by simpa using hq))
            (Nat.lt_of_succ_lt_succ (by simpa using ha))

/-- C1: whenever the endpoint completes successfully (HTTP 200) on a
non-empty question list, the returned answers list has exactly the length
of the question list, and the answer at each position is the completion
produced for the question at the same position against the vectorstore the
pipeline built. -/
theorem run_query_answers_align_with_questions
    (cfg : Config) (o : Oracles) (documents : Str) (questions : List Str)
    (hdr : Option Str) (ans : List Str)
    (_hne : questions ≠ [])
    (hok : (run_query cfg o documents questions hdr).resp = .ok ans) :
    ans.length = questions.length ∧
    ∃ vs, query_pipeline o.answer_one questions vs = .ok ans ∧
      ∀ i (hq : i < questions.length) (ha : i < ans.length),
        o.answer_one (questions.get ⟨i, hq⟩) vs = .ok (ans.get ⟨i, ha⟩) := by
  unfold run_query at hok
  cases hvt : verify_token cfg.bearer hdr with
  | raised401 d => rw [hvt] at hok; simp at hok
  | ok =>
    rw [hvt] at hok
    dsimp only at hok
    cases hex : (extract_text_only o documents).1 with
    | error e => simp only [hex] at hok; simp at hok
    | ok tb =>
      simp only [hex] at hok
      cases hemb : (embed_chunks o.from_documents
          (chunk_text_only tb cfg.chunkSize cfg.chunkOverlap)).1 with
      | error e => simp only [hemb] at hok; simp at hok
      | ok vs =>
        simp only [hemb] at hok
        cases hsave : save_faiss_index o.save_local vs with
        | error e => simp only [hsave] at hok; simp at hok
        | ok u =>
          cases u
          simp only [hsave] at hok
          cases hqp : query_pipeline o.answer_one questions vs with
          | error e => simp only [hqp] at hok; simp at hok
          | ok answers =>
            simp only [hqp] at hok
            injection hok with h2
            subst h2
            obtain ⟨hlen, hidx⟩ :=
              query_pipeline_ok_spec o.answer_one questions vs answers hqp
            exact ⟨hlen, vs, hqp, hidx⟩

/-- Witness for C1: a concrete successful run with one question returns
one aligned answer. -/
theorem run_query_answers_align_with_questions_witness :
    (["ans".data] : List Str).length = (["q1".data] : List Str).length ∧
    ∃ vs, query_pipeline oW.answer_one ["q1".data] vs = .ok ["ans".data] ∧
      ∀ i (hq : i < (["q1".data] : List Str).length)
        (ha : i < (["ans".data] : List Str).length),
        oW.answer_one ((["q1".data] : List Str).get ⟨i, hq⟩) vs =
          .ok ((["ans".data] : List Str).get ⟨i, ha⟩) :=
  run_query_answers_align_with_questions cfgW oW "doc.pdf".data ["q1".data]
    hdrW ["ans".data] (by decide) (by decide)

/-!
## Claim about unsupported extensions (C5)
-/

theorem extractFromPath_downloads (o : Oracles) (fp : Str) (tr : ExtractTrace) :
    (extractFromPath o fp tr).2.downloads = tr.downloads := by
  unfold extractFromPath
  dsimp only
  split <;> rfl

/-- C5: for a local file path whose lowercased extension is none of the
supported ones, `extract_text_only` fails with an error naming the
offending extension, the request is answered with HTTP 500 carrying that
error, and neither the embedding stage nor the answering stage nor any
download is ever reached. -/
theorem unsupported_extension_fails_before_embedding
    (cfg : Config) (o : Oracles) (documents : Str) (questions : List Str)
    (hdr : Option Str)
    (hlocal : (pyStartswith "http://".data documents ||
      pyStartswith "https://".data documents) = false)
    (hext : pyLower (splitext documents).2 ∉ supportedExtensions)
    (hauth : verify_token cfg.bearer hdr = .ok) :
    (extract_text_only o documents).1 =
      .error ("Unsupported file type: ".data ++ pyLower (splitext documents).2) ∧
    (run_query cfg o documents questions hdr).resp =
      .err 500 (processingFailed
        ("Unsupported file type: ".data ++ pyLower (splitext documents).2)) ∧
    (run_query cfg o documents questions hdr).stages = [Stage.extraction] ∧
    Stage.embedding ∉ (run_query cfg o documents questions hdr).stages ∧
    Stage.answering ∉ (run_query cfg o documents questions hdr).stages ∧
    (run_query cfg o documents questions hdr).downloads = [] := by
  have hne : ∀ x ∈ supportedExtensions, pyLower (splitext documents).2 ≠ x :=
    fun x hx he => hext (he ▸ hx)
  have hPdf := hne ".pdf".data (by simp [supportedExtensions])
  have hDocx := hne ".docx".data (by simp [supportedExtensions])
  have hJpg := hne ".jpg".data (by simp [supportedExtensions])
  have hJpeg := hne ".jpeg".data (by simp [supportedExtensions])
  have hPng := hne ".png".data (by simp [supportedExtensions])
  have hXlsx := hne ".xlsx".data (by simp [supportedExtensions])
  have hZip := hne ".zip".data (by simp [supportedExtensions])
  have hEml := hne ".eml".data (by simp [supportedExtensions])
  have hMsg := hne ".msg".data (by simp [supportedExtensions])
  have himg : (decide (pyLower (splitext documents).2 = ".jpg".data) ||
      decide (pyLower (splitext documents).2 = ".jpeg".data) ||
      decide (pyLower (splitext documents).2 = ".png".data)) = false := by
    simp [hJpg, hJpeg, hPng]
  have hpdfne : (pyLower (splitext documents).2 != ".pdf".data) = true := by
    simp only [bne_iff_ne, ne_eq]
    exact hPdf
  have hex : (extract_text_only o documents).1 =
      .error ("Unsupported file type: ".data ++ pyLower (splitext documents).2) := by
    unfold extract_text_only
    rw [hlocal]
    simp only [Bool.false_eq_true, if_false]
    unfold extractFromPath
    dsimp only
    rw [if_neg hDocx, himg]
    simp only [Bool.false_eq_true, if_false]
    rw [if_neg hXlsx, if_neg hZip, if_neg hEml, if_neg hMsg, if_pos hpdfne]
  have hdl : (extract_text_only o documents).2.downloads = [] := by
    unfold extract_text_only
    rw [hlocal]
    simp only [Bool.false_eq_true, if_false]
    rw [extractFromPath_downloads]
  have hrun : run_query cfg o documents questions hdr =
      { resp := .err 500 (processingFailed
          ("Unsupported file type: ".data ++ pyLower (splitext documents).2))
        stages := [Stage.extraction]
        downloads := (extract_text_only o documents).2.downloads } := by
    unfold run_query
    rw [hauth]
    dsimp only
    rw [hex]
  refine ⟨hex, ?_, ?_, ?_, ?_, ?_⟩
  · rw [hrun]
  · rw [hrun]
  · rw [hrun]; dsimp only; decide
  · rw [hrun]; dsimp only; decide
  · rw [hrun]; dsimp only; exact hdl

/-- Witness for C5 at the concrete path `a.txt`. -/
theorem unsupported_extension_fails_before_embedding_witness :
    (extract_text_only oW "a.txt".data).1 =
      .error ("Unsupported file type: ".data ++ pyLower (splitext "a.txt".data).2) ∧
    (run_query cfgW oW "a.txt".data ["q".data] hdrW).resp =
      .err 500 (processingFailed
        ("Unsupported file type: ".data ++ pyLower (splitext "a.txt".data).2)) ∧
    (run_query cfgW oW "a.txt".data ["q".data] hdrW).stages = [Stage.extraction] ∧
    Stage.embedding ∉ (run_query cfgW oW "a.txt".data ["q".data] hdrW).stages ∧
    Stage.answering ∉ (run_query cfgW oW "a.txt".data ["q".data] hdrW).stages ∧
    (run_query cfgW oW "a.txt".data ["q".data] hdrW).downloads = [] :=
  unsupported_extension_fails_before_embedding cfgW oW "a.txt".data ["q".data]
    hdrW (by decide) (by decide) (by decide)

/-!
## Properties of `rfindChar` and `splitext` (for C8)
-/

theorem rfindChar_none_not_mem (c : Char) :
    ∀ s : Str, rfindChar c s = none → c ∉ s
  | [], _ => by simp
  | a :: rest, h => by
    simp only [rfindChar] at h
    cases hr : rfindChar c rest with
    | some i => simp only [hr] at h; cases h
    | none =>
      simp only [hr] at h
      by_cases hac : a = c
      · rw [if_pos hac] at h; cases h
      · intro hm
        rcases List.mem_cons.mp hm with hcm | hm2
        · exact hac hcm.symm
        · exact rfindChar_none_not_mem c rest hr hm2

theorem rfindChar_none_of_not_mem (c : Char) :
    ∀ s : Str, c ∉ s → rfindChar c s = none
  | [], _ => rfl
  | x :: rest, hs => by
    simp only [rfindChar]
    rw [rfindChar_none_of_not_mem c rest (fun hm => hs (List.mem_cons_of_mem x hm))]
    rw [if_neg (fun hxc : x = c => hs (List.mem_cons.mpr (Or.inl hxc.symm)))]

theorem rfindChar_some_decomp (c : Char) :
    ∀ (s : Str) (i : Nat), rfindChar c s = some i →
      ∃ a b, s = a ++ (c :: b) ∧ a.length = i ∧ c ∉ b
  | [], i, h => by simp [rfindChar] at h
  | x :: rest, i, h => by
    simp only [rfindChar] at h
    cases hr : rfindChar c rest with
    | some j =>
      simp only [hr] at h
      injection h with hi
      obtain ⟨a, b, hs, hl, hb⟩ := rfindChar_some_decomp c rest j hr
      exact ⟨x :: a, b, by rw [List.cons_append, hs],
        by simp only [List.length_cons, hl, hi], hb⟩
    | none =>
      simp only [hr] at h
      by_cases hxc : x = c
      · rw [if_pos hxc] at h
        injection h with hi
        exact ⟨[], rest, by rw [hxc, List.nil_append], by simp [← hi],
          rfindChar_none_not_mem c rest hr⟩
      · rw [if_neg hxc] at h
        cases h

theorem rfindChar_append_of_not_mem (c : Char) (b : Str) (hb : c ∉ b) :
    ∀ a : Str, rfindChar c (a ++ b) = rfindChar c a
  | [] => by
    rw [List.nil_append]
    rw [rfindChar_none_of_not_mem c b hb]
    rfl
  | x :: a' => by
    rw [List.cons_append]
    simp only [rfindChar]
    rw [rfindChar_append_of_not_mem c b hb a']

theorem rfindChar_last (c : Char) (b : Str) (hb : c ∉ b) :
    ∀ a : Str, rfindChar c (a ++ (c :: b)) = some a.length
  | [] => by
    rw [List.nil_append]
    simp only [rfindChar]
    rw [rfindChar_none_of_not_mem c b hb]
    simp
  | x :: a' => by
    rw [List.cons_append]
    simp only [rfindChar]
    rw [rfindChar_last c b hb a']
    simp

theorem splitext_ext_shape (p : Str) (hne : (splitext p).2 ≠ []) :
    ∃ r, (splitext p).2 = '.' :: r ∧ ('.' : Char) ∉ r ∧ ('/' : Char) ∉ r := by
  unfold splitext at hne ⊢
  cases hdot : rfindChar '.' p with
  | none => simp [hdot] at hne
  | some dot =>
    simp only [hdot] at hne ⊢
    obtain ⟨a, b, hs, hl, hb⟩ := rfindChar_some_decomp '.' p dot hdot
    cases hsl : rfindChar '/' p with
    | none =>
      simp only [hsl] at hne ⊢
      by_cases hcond : ((p.drop 0).take (dot - 0)).any (fun c => c != '.') = true
      · rw [if_pos hcond]
        refine ⟨b, ?_, hb, ?_⟩
        · show p.drop dot = '.' :: b
          rw [hs, ← hl, List.drop_left]
        · intro hm
          apply rfindChar_none_not_mem '/' p hsl
          rw [hs]
          exact List.mem_append.mpr (Or.inr (List.mem_cons_of_mem '.' hm))
      · rw [if_neg hcond] at hne
        simp at hne
    | some s =>
      simp only [hsl] at hne ⊢
      by_cases hcond : ((p.drop (s + 1)).take (dot - (s + 1))).any (fun c => c != '.') = true
      · rw [if_pos hcond]
        obtain ⟨a2, b2, hs2, hl2, hb2⟩ := rfindChar_some_decomp '/' p s hsl
        have hseg : ((p.drop (s + 1)).take (dot - (s + 1))).length ≠ 0 := by
          intro h0
          rw [List.length_eq_zero.mp h0] at hcond
          simp at hcond
        have hlen : dot - (s + 1) ≠ 0 := by
          intro h0
          rw [h0] at hseg
          simp at hseg
        have hb2' : p.drop (s + 1) = b2 := by
          rw [hs2, List.append_cons]
          have hlen1 : s + 1 = (a2 ++ ['/']).length := by
            simp only [List.length_append, List.length_cons, List.length_nil]
            omega
          rw [hlen1, List.drop_left]
        have hbd : b = p.drop (dot + 1) := by
          rw [hs, List.append_cons]
          have hlen1 : dot + 1 = (a ++ ['.']).length := by
            simp only [List.length_append, List.length_cons, List.length_nil]
            omega
          rw [hlen1, List.drop_left]
        have hsub : b = b2.drop (dot - s) := by
          rw [hbd, ← hb2', List.drop_drop]
          congr 1
          omega
        refine ⟨b, ?_, hb, ?_⟩
        · show p.drop dot = '.' :: b
          rw [hs, ← hl, List.drop_left]
        · intro hm
          rw [hsub] at hm
          exact hb2 (List.drop_subset _ _ hm)
      · rw [if_neg hcond] at hne
        simp at hne

theorem splitext_stem_append (stem r : Str)
    (hstem1 : ('.' : Char) ∉ stem) (hstem2 : stem ≠ [])
    (hstem3 : stem.getLast? ≠ some '/')
    (hr1 : ('.' : Char) ∉ r) (hr2 : ('/' : Char) ∉ r) :
    splitext (stem ++ ('.' :: r)) = (stem, '.' :: r) := by
  have hdot : rfindChar '.' (stem ++ ('.' :: r)) = some stem.length :=
    rfindChar_last '.' r hr1 stem
  have hsl : rfindChar '/' (stem ++ ('.' :: r)) = rfindChar '/' stem := by
    refine rfindChar_append_of_not_mem '/' ('.' :: r) ?_ stem
    intro hm
    rcases List.mem_cons.mp hm with hc | hc
    · cases hc
    · exact hr2 hc
  unfold splitext
  rw [hdot, hsl]
  cases hfs : rfindChar '/' stem with
  | none =>
    dsimp only
    have htk : (stem ++ ('.' :: r)).take stem.length = stem := List.take_left stem _
    have hcond : (((stem ++ ('.' :: r)).drop 0).take (stem.length - 0)).any
        (fun c => c != '.') = true := by
      rw [List.drop_zero, Nat.sub_zero, htk]
      cases stem with
      | nil => exact absurd rfl hstem2
      | cons s0 srest =>
        refine List.any_eq_true.mpr ⟨s0, List.mem_cons_self s0 srest, ?_⟩
        simp only [bne_iff_ne, ne_eq]
        exact fun h0 => hstem1 (h0 ▸ List.mem_cons_self s0 srest)
    rw [if_pos hcond, htk, List.drop_left]
  | some s =>
    dsimp only
    obtain ⟨a2, b2, hs2, hl2, hb2⟩ := rfindChar_some_decomp '/' stem s hfs
    have hb2ne : b2 ≠ [] := by
      intro h0
      rw [h0] at hs2
      rw [hs2] at hstem3
      exact hstem3 (List.getLast?_concat a2)
    have hdrop : (stem ++ ('.' :: r)).drop (s + 1) = b2 ++ ('.' :: r) := by
      rw [hs2, List.append_assoc, List.cons_append,
        List.append_cons a2 '/' (b2 ++ ('.' :: r))]
      have hlen1 : s + 1 = (a2 ++ ['/']).length := by
        simp only [List.length_append, List.length_cons, List.length_nil]
        omega
      rw [hlen1, List.drop_left]
    have hsplen : stem.length - (s + 1) = b2.length := by
      rw [hs2]
      simp only [List.length_append, List.length_cons]
      omega
    have hseg2 : ((stem ++ ('.' :: r)).drop (s + 1)).take (stem.length - (s + 1)) = b2 := by
      rw [hdrop, hsplen]
      exact List.take_left b2 _
    have hcond : (((stem ++ ('.' :: r)).drop (s + 1)).take (stem.length - (s + 1))).any
        (fun c => c != '.') = true := by
      rw [hseg2]
      cases hb2c : b2 with
      | nil => exact absurd hb2c hb2ne
      | cons c0 b2' =>
        refine List.any_eq_true.mpr ⟨c0, List.mem_cons_self c0 b2', ?_⟩
        simp only [bne_iff_ne, ne_eq]
        intro h0
        apply hstem1
        rw [hs2, hb2c]
        exact List.mem_append.mpr (Or.inr (List.mem_cons_of_mem '/'
          (List.mem_cons.mpr (Or.inl h0.symm))))
    rw [if_pos hcond, List.take_left, List.drop_left]

theorem extractFromPath_dispatchExt (o : Oracles) (fp : Str) (tr : ExtractTrace) :
    (extractFromPath o fp tr).2.dispatchExt = some (pyLower (splitext fp).2) := by
  unfold extractFromPath
  dsimp only
  split <;> rfl

/-- C8: for every remote URL input (given that the temporary-file stem
chosen by `tempfile` contains no dot, is non-empty and does not end in a
slash), `extract_text_only` downloads the file with the fixed 20-second
timeout, and the extension used for the subsequent format dispatch is the
lowercased extension of the URL path component, defaulting to `.pdf` when
that path has no extension. -/
theorem url_download_timeout_and_inferred_extension
    (o : Oracles) (url : Str)
    (hurl : (pyStartswith "http://".data url || pyStartswith "https://".data url) = true)
    (hstem1 : ('.' : Char) ∉ o.dl.tmpStem) (hstem2 : o.dl.tmpStem ≠ [])
    (hstem3 : o.dl.tmpStem.getLast? ≠ some '/') :
    (extract_text_only o url).2.downloads = [{ url := url, timeout := 20 }] ∧
    (o.dl.fail = none →
      (extract_text_only o url).2.dispatchExt =
        some (if (splitext (urlparsePath url)).2 = [] then ".pdf".data
          else pyLower (splitext (urlparsePath url)).2)) := by
  constructor
  · unfold extract_text_only
    rw [if_pos hurl]
    dsimp only
    cases hf : o.dl.fail with
    | some e => simp only [download_file, hf]
    | none =>
      simp only [download_file, hf]
      rw [extractFromPath_downloads]
  · intro hfail
    unfold extract_text_only
    rw [if_pos hurl]
    dsimp only
    simp only [download_file, hfail]
    rw [extractFromPath_dispatchExt]
    by_cases hraw : (splitext (urlparsePath url)).2 = []
    · rw [if_pos hraw, if_pos hraw, hraw]
      have hD : (if pyLower ([] : Str) = [] then ".pdf".data else pyLower ([] : Str)) =
          ".pdf".data := by decide
      rw [hD]
      have hps : (".pdf".data : Str) = '.' :: "pdf".data := rfl
      rw [hps]
      rw [splitext_stem_append o.dl.tmpStem "pdf".data hstem1 hstem2 hstem3
        (by decide) (by decide)]
      dsimp only
      decide
    · obtain ⟨r, hsh, hr1, hr2⟩ := splitext_ext_shape (urlparsePath url) hraw
      rw [if_neg hraw, if_neg hraw, hsh]
      rw [splitext_stem_append o.dl.tmpStem r hstem1 hstem2 hstem3 hr1 hr2]

/-- Witness for C8 at a URL carrying an uppercase `.PDF` extension. -/
theorem url_download_timeout_and_inferred_extension_witness :
    (extract_text_only oW "http://h.example/Policy.PDF".data).2.downloads =
      [{ url := "http://h.example/Policy.PDF".data, timeout := 20 }] ∧
    (oW.dl.fail = none →
      (extract_text_only oW "http://h.example/Policy.PDF".data).2.dispatchExt =
        some (if (splitext (urlparsePath "http://h.example/Policy.PDF".data)).2 = []
          then ".pdf".data
          else pyLower (splitext (urlparsePath "http://h.example/Policy.PDF".data)).2)) :=
  url_download_timeout_and_inferred_extension oW "http://h.example/Policy.PDF".data
    (by decide) (by decide) (by decide) (by decide)

/-!
## Properties of the splitter (for C7)
-/

theorem containsSub_of_within (sep u t : Str) (a b : Str) (ht : t = a ++ (u ++ b))
    (hc : containsSub sep u = true) : containsSub sep t = true := by
  obtain ⟨l, r, hu⟩ := exists_decomp_of_containsSub u sep hc
  rw [ht, hu]
  have hassoc : a ++ ((l ++ (sep ++ r)) ++ b) = (a ++ l) ++ (sep ++ (r ++ b)) := by
    simp [List.append_assoc]
  rw [hassoc]
  exact containsSub_of_decomp (a ++ l) sep (r ++ b)

theorem pySplit_piece_decomp (sep : Str) (hsep : sep ≠ []) :
    ∀ (n : Nat) (s p : Str), s.length ≤ n → p ∈ pySplit sep s →
      ∃ a b, s = a ++ (p ++ b) := by
  intro n
  induction n with
  | zero =>
    intro s p h1 hp
    have hs : s = [] := List.eq_nil_of_length_eq_zero (Nat.le_zero.mp h1)
    subst hs
    rw [pySplit_of_findSub_none sep [] hsep (findSub_nil sep hsep)] at hp
    simp at hp
    subst hp
    exact ⟨[], [], rfl⟩
  | succ n ih =>
    intro s p h1 hp
    cases hfs : findSub sep s with
    | none =>
      rw [pySplit_of_findSub_none sep s hsep hfs] at hp
      simp at hp
      subst hp
      exact ⟨[], [], by simp⟩
    | some i =>
      rw [pySplit_eq sep s hsep, hfs] at hp
      dsimp only at hp
      rcases List.mem_cons.mp hp with rfl | hp2
      · exact ⟨[], s.drop i, by simp [List.take_append_drop]⟩
      · have hi := findSub_lt_length s sep hsep i hfs
        have hsl := sep_length_pos sep hsep
        have hd : (s.drop (i + sep.length)).length = s.length - (i + sep.length) :=
          List.length_drop _ _
        obtain ⟨a, b, hdec⟩ := ih (s.drop (i + sep.length)) p (by omega) hp2
        refine ⟨s.take (i + sep.length) ++ a, b, ?_⟩
        conv_lhs => rw [← List.take_append_drop (i + sep.length) s]
        rw [hdec]
        simp [List.append_assoc]

theorem pySplit_piece_decomp_of_mem (sep : Str) (hsep : sep ≠ []) (s p : Str)
    (hp : p ∈ pySplit sep s) : ∃ a b, s = a ++ (p ++ b) :=
  pySplit_piece_decomp sep hsep s.length s p (Nat.le_refl _) hp

theorem pySplit_not_contains (sep : Str) (hsep : sep ≠ []) :
    ∀ (n : Nat) (s p : Str), s.length ≤ n → p ∈ pySplit sep s →
      containsSub sep p = false := by
  intro n
  induction n with
  | zero =>
    intro s p h1 hp
    have hs : s = [] := List.eq_nil_of_length_eq_zero (Nat.le_zero.mp h1)
    subst hs
    rw [pySplit_of_findSub_none sep [] hsep (findSub_nil sep hsep)] at hp
    simp at hp
    subst hp
    unfold containsSub
    rw [findSub_nil sep hsep]
    rfl
  | succ n ih =>
    intro s p h1 hp
    cases hfs : findSub sep s with
    | none =>
      rw [pySplit_of_findSub_none sep s hsep hfs] at hp
      simp at hp
      subst hp
      unfold containsSub
      rw [hfs]
      rfl
    | some i =>
      rw [pySplit_eq sep s hsep, hfs] at hp
      dsimp only at hp
      rcases List.mem_cons.mp hp with rfl | hp2
      · cases hc : containsSub sep (s.take i) with
        | false => rfl
        | true =>
          exfalso
          obtain ⟨l, r, hdec⟩ := exists_decomp_of_containsSub _ sep hc
          have hlen : l.length + (sep.length + r.length) = (s.take i).length := by
            rw [hdec]
            simp [List.length_append]
          have hti : (s.take i).length ≤ i := by
            simp [List.length_take]
          have hocc : s = l ++ (sep ++ (r ++ s.drop i)) := by
            conv_lhs => rw [← List.take_append_drop i s]
            rw [hdec]
            simp [List.append_assoc]
          have hmin := findSub_min s sep i l (r ++ s.drop i) hfs hocc
          have hsl := sep_length_pos sep hsep
          omega
      · have hi := findSub_lt_length s sep hsep i hfs
        have hsl := sep_length_pos sep hsep
        have hd : (s.drop (i + sep.length)).length = s.length - (i + sep.length) :=
          List.length_drop _ _
        exact ih (s.drop (i + sep.length)) p (by omega) hp2

theorem pySplit_not_contains_of_mem (sep : Str) (hsep : sep ≠ []) (s p : Str)
    (hp : p ∈ pySplit sep s) : containsSub sep p = false :=
  pySplit_not_contains sep hsep s.length s p (Nat.le_refl _) hp

theorem splitBySeps_unit_decomp (size : Nat) :
    ∀ (seps : List Str) (text u : Str), (∀ sep ∈ seps, sep ≠ []) →
      u ∈ splitBySeps size seps text → ∃ a b, text = a ++ (u ++ b)
  | [], text, u, _, hu => by
    simp only [splitBySeps] at hu
    simp at hu
    subst hu
    exact ⟨[], [], by simp⟩
  | sep :: rest, text, u, hne, hu => by
    simp only [splitBySeps] at hu
    by_cases hlen : text.length ≤ size
    · rw [if_pos hlen] at hu
      simp at hu
      subst hu
      exact ⟨[], [], by simp⟩
    · rw [if_neg hlen] at hu
      have hrestne : ∀ x ∈ rest, x ≠ [] :=
        fun x hx => hne x (List.mem_cons_of_mem sep hx)
      by_cases hparts : (pySplit sep text).length ≤ 1
      · rw [if_pos hparts] at hu
        exact splitBySeps_unit_decomp size rest text u hrestne hu
      · rw [if_neg hparts] at hu
        rw [List.mem_flatten] at hu
        obtain ⟨l, hl, hul⟩ := hu
        rw [List.mem_map] at hl
        obtain ⟨piece, hpiece, rfl⟩ := hl
        obtain ⟨a1, b1, h1⟩ := splitBySeps_unit_decomp size rest piece u hrestne hul
        obtain ⟨a2, b2, h2⟩ :=
          pySplit_piece_decomp_of_mem sep (hne sep (List.mem_cons_self _ _)) text piece hpiece
        refine ⟨a2 ++ a1, b1 ++ b2, ?_⟩
        rw [h2, h1]
        simp [List.append_assoc]

theorem splitBySeps_units_bound (size : Nat) :
    ∀ (seps : List Str) (text u : Str), (∀ sep ∈ seps, sep ≠ []) →
      u ∈ splitBySeps size seps text →
      u.length ≤ size ∨ ∀ sep ∈ seps, containsSub sep u = false
  | [], text, u, _, hu => by
    exact Or.inr (fun sep hs => absurd hs (List.not_mem_nil sep))
  | sep :: rest, text, u, hne, hu => by
    simp only [splitBySeps] at hu
    by_cases hlen : text.length ≤ size
    · rw [if_pos hlen] at hu
      simp at hu
      subst hu
      exact Or.inl hlen
    · rw [if_neg hlen] at hu
      have hsepne := hne sep (List.mem_cons_self _ _)
      have hrestne : ∀ x ∈ rest, x ≠ [] :=
        fun x hx => hne x (List.mem_cons_of_mem sep hx)
      by_cases hparts : (pySplit sep text).length ≤ 1
      · rw [if_pos hparts] at hu
        rcases splitBySeps_units_bound size rest text u hrestne hu with h | h
        · exact Or.inl h
        · right
          intro x hx
          rcases List.mem_cons.mp hx with rfl | hx2
          · have hnone := findSub_none_of_split_short x text hsepne hparts
            obtain ⟨a, b, hdec⟩ := splitBySeps_unit_decomp size rest text u hrestne hu
            cases hc : containsSub x u with
            | false => rfl
            | true =>
              have h2 := containsSub_of_within x u text a b hdec hc
              unfold containsSub at h2
              rw [hnone] at h2
              simp at h2
          · exact h x hx2
      · rw [if_neg hparts] at hu
        rw [List.mem_flatten] at hu
        obtain ⟨l, hl, hul⟩ := hu
        rw [List.mem_map] at hl
        obtain ⟨piece, hpiece, rfl⟩ := hl
        rcases splitBySeps_units_bound size rest piece u hrestne hul with h | h
        · exact Or.inl h
        · right
          intro x hx
          rcases List.mem_cons.mp hx with rfl | hx2
          · have hpf := pySplit_not_contains_of_mem x hsepne text piece hpiece
            obtain ⟨a, b, hdec⟩ := splitBySeps_unit_decomp size rest piece u hrestne hul
            cases hc : containsSub x u with
            | false => rfl
            | true =>
              have h2 := containsSub_of_within x u piece a b hdec hc
              rw [hpf] at h2
              cases h2
          · exact h x hx2

theorem mergeAux_mem (size ov : Nat) :
    ∀ (units : List Str) (cur c : Str), c ∈ mergeAux size ov cur units →
      c.length ≤ size ∨ c = cur ∨ c ∈ units
  | [], cur, c, hc => by
    simp only [mergeAux] at hc
    simp at hc
    subst hc
    exact Or.inr (Or.inl rfl)
  | u :: rest, cur, c, hc => by
    simp only [mergeAux] at hc
    by_cases h1 : cur.length + u.length ≤ size
    · rw [if_pos h1] at hc
      rcases mergeAux_mem size ov rest (cur ++ u) c hc with h | h | h
      · exact Or.inl h
      · subst h
        left
        have hla : (cur ++ u).length = cur.length + u.length := List.length_append _ _
        omega
      · exact Or.inr (Or.inr (List.mem_cons_of_mem u h))
    · rw [if_neg h1] at hc
      by_cases h2 : (takeTailWindow ov cur).length + u.length ≤ size
      · rw [if_pos h2] at hc
        rcases List.mem_cons.mp hc with rfl | hc2
        · exact Or.inr (Or.inl rfl)
        · rcases mergeAux_mem size ov rest (takeTailWindow ov cur ++ u) c hc2 with h | h | h
          · exact Or.inl h
          · subst h
            left
            have hla : (takeTailWindow ov cur ++ u).length =
                (takeTailWindow ov cur).length + u.length := List.length_append _ _
            omega
          · exact Or.inr (Or.inr (List.mem_cons_of_mem u h))
      · rw [if_neg h2] at hc
        rcases List.mem_cons.mp hc with rfl | hc2
        · exact Or.inr (Or.inl rfl)
        · rcases mergeAux_mem size ov rest u c hc2 with h | h | h
          · exact Or.inl h
          · rw [h]
            exact Or.inr (Or.inr (List.mem_cons_self u rest))
          · exact Or.inr (Or.inr (List.mem_cons_of_mem u h))

theorem mergeUnits_mem (size ov : Nat) (units : List Str) (c : Str)
    (hc : c ∈ mergeUnits size ov units) : c.length ≤ size ∨ c ∈ units := by
  cases units with
  | nil => simp [mergeUnits] at hc
  | cons u rest =>
    simp only [mergeUnits] at hc
    rcases mergeAux_mem size ov rest u c hc with h | h | h
    · exact Or.inl h
    · rw [h]
      exact Or.inr (List.mem_cons_self u rest)
    · exact Or.inr (List.mem_cons_of_mem u h)

/-- C7: with overlap smaller than the chunk size, every chunk produced by
`chunk_text_only` (which tries paragraph breaks, then line breaks, then
periods, then spaces, in that order) has length at most the chunk size,
except when the chunk is a single indivisible unit — one in which no
paragraph break, line break, period or space occurs. -/
theorem chunk_length_bounded_unless_indivisible
    (docs : List LCDoc) (size ov : Nat) (_hov : ov < size) :
    ∀ c ∈ chunk_text_only docs size ov,
      c.page_content.length ≤ size ∨
      (containsSub "\n\n".data c.page_content = false ∧
       containsSub "\n".data c.page_content = false ∧
       containsSub ".".data c.page_content = false ∧
       containsSub " ".data c.page_content = false) := by
  intro c hc
  unfold chunk_text_only at hc
  rw [List.mem_flatten] at hc
  obtain ⟨l, hl, hcl⟩ := hc
  rw [List.mem_map] at hl
  obtain ⟨d, hd, rfl⟩ := hl
  rw [List.mem_map] at hcl
  obtain ⟨t, ht, rfl⟩ := hcl
  unfold split_text at ht
  rcases mergeUnits_mem size ov _ t ht with h | h
  · exact Or.inl h
  · rcases splitBySeps_units_bound size splitterSeparators d.page_content t
      (by decide) h with h2 | h2
    · exact Or.inl h2
    · exact Or.inr ⟨h2 "\n\n".data (by decide), h2 "\n".data (by decide),
        h2 ".".data (by decide), h2 " ".data (by decide)⟩

/-- Witness for C7 on a concrete page: with size 4 and overlap 1 the page
`ab cd` becomes the single chunk `abcd`, which satisfies the bound. -/
theorem chunk_length_bounded_unless_indivisible_witness :
    "abcd".data.length ≤ 4 ∨
    (containsSub "\n\n".data "abcd".data = false ∧
     containsSub "\n".data "abcd".data = false ∧
     containsSub ".".data "abcd".data = false ∧
     containsSub " ".data "abcd".data = false) :=
  chunk_length_bounded_unless_indivisible [⟨"ab cd".data, 0⟩] 4 1 (by decide)
    ⟨"abcd".data, 0⟩ (by decide)
